import Mathlib

/-! The frame packer `framegen`: frame discovery, loading and assembly.

A shallow embedding of `src/build/framegen/main.c`, the build-time packer that
joins the `.txt` frame files of a directory with the separator byte `0x01` and
compresses the result with raw DEFLATE.

Conventions of the embedding.

* A byte is a `Nat`; a buffer together with its byte count (`char *` plus
  `size_t`) is a `List Nat` whose length is the count.
* A C string is the `List Nat` of the bytes stored at the pointer; as in C the
  string ends at the first `0` byte, or at the end of the list when there is
  none (the list is then followed by the terminating NUL).
* Everything outside the program (the directory, the files, the allocator,
  zlib, the output file) is a field of `Env`; the C library routines the
  program calls are defined by what the C standard says of them.
* Counts and sizes (`int n`, `size_t total_size`, `size_t offset`) are
  natural numbers: the frames, their count and the joined buffer are all
  resident at once, so none of these sums can wrap. The conversions that can
  lose bits (`long` to `size_t` in `read_file`, `size_t` to the 32-bit fields
  of `z_stream`) are written out.
-/

namespace Framegen

/-! ## Constants -/

/-- The macro `SEPARATOR`, the byte `'\x01'`. -/
def SEPARATOR : Nat := 1

/-- The string literal `".txt"`. -/
def dot_txt : List Nat := [46, 116, 120, 116]

/-! ## C string primitives -/

/-- The function `strlen`: the number of bytes before the first NUL. -/
def strlen : List Nat → Nat
  | [] => 0
  | c :: cs => if c = 0 then 0 else strlen cs + 1

/-- The function `strcmp`: it walks both strings until the bytes differ or
both end; the result is the difference of the first differing bytes (C fixes
only its sign). -/
def strcmp : List Nat → List Nat → Int
  | [], [] => 0
  | [], b :: _ => 0 - (b : Int)
  | a :: _, [] => (a : Int) - 0
  | a :: as, b :: bs =>
    if a ≠ b then (a : Int) - (b : Int)
    else if a = 0 then 0
    else strcmp as bs

/-- The bytes of a C string: those before the first NUL. -/
def cstr (s : List Nat) : List Nat := s.takeWhile (fun c => c ≠ 0)

/-! ## Filtering and comparing names -/

/-- The function `filter_name`: `len > 4 && strcmp(name + len - 4, ".txt") == 0`. -/
def filter_name (name : List Nat) : Bool :=
  let len := strlen name
  decide (len > 4) && decide (strcmp (name.drop (len - 4)) dot_txt = 0)

/-- The function `compare_strings`: `strcmp` of the two names. -/
def compare_strings (a b : List Nat) : Int := strcmp a b

/-- A directory entry: its name and whether it is a directory
(`d_type`, respectively `dwFileAttributes & FILE_ATTRIBUTE_DIRECTORY`). -/
structure Dirent where
  d_name : List Nat
  is_dir : Bool
deriving DecidableEq

/-- The function `filter_frames`: `filter_name(entry->d_name)`. -/
def filter_frames (entry : Dirent) : Bool := filter_name entry.d_name

/-- The function `compare_frames`: `strcmp` of the two entries' names. -/
def compare_frames (a b : Dirent) : Int := strcmp a.d_name b.d_name

/-! ## The environment -/

/-- What stdio reports for a file opened with `fopen(path, "rb")`. -/
structure FileData where
  /-- The value of `ftell` after `fseek(f, 0, SEEK_END)` (a `long`). -/
  ftell_end : Int
  /-- The bytes `fread` can deliver from the start of the file. -/
  data : List Nat

/-- Everything `main` obtains from outside the program. -/
structure Env where
  /-- The argument count. -/
  argc : Nat
  /-- The bytes at `argv[1]`. -/
  frames_dir : List Nat
  /-- Whether `malloc(size)` returns a non-null pointer. -/
  malloc : Nat → Bool
  /-- The bytes found in freshly allocated memory, by offset. -/
  garbage : Nat → Nat
  /-- The entries of `frames_dir` in the order the system enumerates them;
  `none` when the directory cannot be scanned. -/
  readdir : Option (List Dirent)
  /-- Windows only: whether the system matches an entry against `*.txt`. -/
  wildcard : Dirent → Bool
  /-- The result of `fopen(path, "rb")`, `none` for a null stream. -/
  fopen_rb : List Nat → Option FileData
  /-- The function `compressBound` of zlib. -/
  compressBound : Nat → Nat
  /-- The return value of `deflateInit2`. -/
  deflateInit2 : Int
  /-- The call `deflate(&stream, Z_FINISH)` on the given input bytes and
  `avail_out`: its return value and the bytes it produced (`total_out` of them). -/
  deflate : List Nat → Nat → Int × List Nat
  /-- Whether `fopen(output_file, "wb")` returns a stream. -/
  fopen_wb : Bool
  /-- The number of bytes `fwrite` reports as written. -/
  fwrite : List Nat → Nat

/-- The calls that touch frame files or the output file, in program order. -/
inductive Event where
  | read_file (path : List Nat)
  | fopen_wb
  | fwrite (bytes : List Nat)
deriving DecidableEq

/-- The two compilations of `main`: with `_WIN32` defined or not. -/
inductive Platform where
  | posix
  | win32
deriving DecidableEq

/-- The constant `Z_OK` of zlib. -/
def Z_OK : Int := 0

/-- The constant `Z_STREAM_END` of zlib. -/
def Z_STREAM_END : Int := 1

/-- The value of `sizeof(char*)`. -/
def sizeof_ptr : Nat := 8

/-! ## Library routines -/

/-- The function `strdup`: a fresh copy of the string, up to its terminating NUL. -/
def strdup (s : List Nat) : List Nat := cstr s

/-- The function `qsort`, which is outside the program: C promises the
elements in ascending order of `compar`, here produced by insertion. Lemma
`discover_posix_of_ascending` shows that any other ascending arrangement
gives the same names in the same order. -/
def qsort {α : Type} (compar : α → α → Int) (base : List α) : List α :=
  base.insertionSort (fun a b => compar a b ≤ 0)

/-- The function `scandir`: the entries accepted by `filter`, sorted with `compar`;
`none` stands for the return value `-1`. -/
def scandir (dir : Option (List Dirent)) (filter : Dirent → Bool)
    (compar : Dirent → Dirent → Int) : Option (List Dirent) :=
  match dir with
  | none => none
  | some entries => some (qsort compar (entries.filter filter))

/-- The call `memcpy(dst, src, n)` into the memory `mem`. -/
def memcpy (mem : Nat → Nat) (dst : Nat) (src : List Nat) (n : Nat) : Nat → Nat :=
  fun a => if dst ≤ a ∧ a < dst + n then src.getD (a - dst) 0 else mem a

/-- The assignment `mem[dst] = v`. -/
def store (mem : Nat → Nat) (dst : Nat) (v : Nat) : Nat → Nat :=
  fun a => if a = dst then v else mem a

/-- The first `size` bytes of the memory `mem`. -/
def buffer (mem : Nat → Nat) (size : Nat) : List Nat :=
  (List.range size).map mem

/-- The call `snprintf(path, 4096, "%s/%s", frames_dir, name)`. -/
def snprintf_path (frames_dir name : List Nat) : List Nat :=
  (cstr frames_dir ++ 47 :: cstr name).take 4095

/-! ## `read_file` -/

/-- The function `read_file`: the buffer of `*out_size` bytes, or `none` for `NULL`. -/
def read_file (env : Env) (path : List Nat) : Option (List Nat) :=
  match env.fopen_rb path with
  | none => none
  | some f =>
    let size : Int := f.ftell_end
    -- `malloc(size)` and `(size_t)size` convert the `long` to `size_t`
    let count : Nat := (size % 2 ^ 64).toNat
    if env.malloc count = false then none
    else
      let buf := f.data.take count
      if buf.length ≠ count then none
      else some buf

/-! ## Frame discovery -/

/-- The body of the `do ... while (FindNextFileA ...)` loop over the entries
the system reports, appending to `names`. -/
def find_loop : List Dirent → List (List Nat) → List (List Nat)
  | [], names => names
  | ffd :: rest, names =>
    if ffd.is_dir then find_loop rest names
    else if filter_name ffd.d_name = false then find_loop rest names
    else find_loop rest (names ++ [strdup ffd.d_name])

/-- Lines 79-121 of `main`: the sorted array `names`, or `none` when the scan
fails and `main` returns 1. -/
def discover (p : Platform) (env : Env) : Option (List (List Nat)) :=
  match p with
  | .posix =>
    match scandir env.readdir filter_frames compare_frames with
    | none => none
    | some namelist => some (namelist.map (fun e => strdup e.d_name))
  | .win32 =>
    match env.readdir with
    | none => none
    | some entries =>
      -- `FindFirstFileA` fails when nothing matches the pattern
      match entries.filter env.wildcard with
      | [] => none
      | ffd :: rest => some (qsort compare_strings (find_loop (ffd :: rest) []))

/-! ## Loading -/

/-- The result of the load loop: `frame_contents` (each with its
`frame_sizes` entry as length) and `total_size`. -/
structure Loaded where
  frame_contents : List (List Nat)
  total_size : Nat
deriving DecidableEq

/-- The load loop of lines 132-143 from index `i` on, over the names not yet
read; `none` when `read_file` fails and `main` returns 1. -/
def load_from (env : Env) (n : Nat) :
    Nat → List (List Nat) → List (List Nat) → Nat → List Event →
      Option Loaded × List Event
  | _, [], frames, total_size, tr => (some ⟨frames, total_size⟩, tr)
  | i, name :: rest, frames, total_size, tr =>
    let path := snprintf_path env.frames_dir name
    match read_file env path with
    | none => (none, tr ++ [Event.read_file path])
    | some buf =>
      let total_size := total_size + buf.length
      let total_size := if i < n - 1 then total_size + 1 else total_size
      load_from env n (i + 1) rest (frames ++ [buf]) total_size
        (tr ++ [Event.read_file path])

/-- The load loop over all of `names`, with `total_size = 0` at the start. -/
def load_frames (env : Env) (names : List (List Nat)) : Option Loaded × List Event :=
  load_from env names.length 0 names [] 0 []

/-! ## Assembly -/

/-- The state of the assembly loop: the memory at `joined`, the variable
`offset`, and the offsets stored to so far, in program order. -/
structure Asm where
  joined : Nat → Nat
  offset : Nat
  stores : List Nat

/-- The assembly loop of lines 152-158 from index `i` on, over the frames not
yet copied. -/
def assemble_from (n : Nat) : Nat → List (List Nat) → Asm → Asm
  | _, [], s => s
  | i, frame :: rest, s =>
    let s1 : Asm :=
      { joined := memcpy s.joined s.offset frame frame.length
        offset := s.offset + frame.length
        stores := s.stores ++ List.range' s.offset frame.length }
    let s2 : Asm :=
      if i < n - 1 then
        { joined := store s1.joined s1.offset SEPARATOR
          offset := s1.offset + 1
          stores := s1.stores ++ [s1.offset] }
      else s1
    assemble_from n (i + 1) rest s2

/-- The assembly loop over all frames, with `offset = 0` at the start and
`mem` the initial content of the allocation. -/
def assemble (frames : List (List Nat)) (mem : Nat → Nat) : Asm :=
  assemble_from frames.length 0 frames ⟨mem, 0, []⟩

/-- The `total_size` bytes at `joined` after the assembly loop. -/
def joined_buffer (frames : List (List Nat)) (total_size : Nat) (mem : Nat → Nat) :
    List Nat :=
  buffer (assemble frames mem).joined total_size

/-! ## `main` -/

/-- The observable result of a run: the exit status, the trace of file
events, and the joined buffer once it has been assembled. -/
structure Outcome where
  status : Int
  trace : List Event
  joined : Option (List Nat)
deriving DecidableEq

/-- The function `main`. The results of `calloc`, `realloc` and `strdup` are not checked by
the program and are taken to be non-null. -/
def main (p : Platform) (env : Env) : Outcome :=
  if env.argc ≠ 3 then ⟨1, [], none⟩
  else if env.malloc (64 * sizeof_ptr) = false then ⟨1, [], none⟩
  else
    match discover p env with
    | none => ⟨1, [], none⟩
    | some names =>
      if names.length = 0 then ⟨1, [], none⟩
      else
        match load_frames env names with
        | (none, tr) => ⟨1, tr, none⟩
        | (some ld, tr) =>
          if env.malloc ld.total_size = false then ⟨1, tr, none⟩
          else
            let joined := joined_buffer ld.frame_contents ld.total_size env.garbage
            let compressed_size := env.compressBound ld.total_size
            if env.malloc compressed_size = false then ⟨1, tr, some joined⟩
            else if env.deflateInit2 ≠ Z_OK then ⟨1, tr, some joined⟩
            else
              -- `avail_in` and `avail_out` are 32-bit `uInt` fields
              let ret := env.deflate (joined.take (ld.total_size % 2 ^ 32))
                (compressed_size % 2 ^ 32)
              if ret.1 ≠ Z_STREAM_END then ⟨1, tr, some joined⟩
              else
                let compressed := ret.2
                if env.fopen_wb = false then ⟨1, tr ++ [Event.fopen_wb], some joined⟩
                else if env.fwrite compressed ≠ compressed.length then
                  ⟨1, tr ++ [Event.fopen_wb, Event.fwrite compressed], some joined⟩
                else ⟨0, tr ++ [Event.fopen_wb, Event.fwrite compressed], some joined⟩

/-! ## The format as the specification words it -/

/-- The frames' bytes one after the other with one separator byte between
consecutive frames, none before the first and none after the last. -/
def interleave : List (List Nat) → List Nat
  | [] => []
  | [frame] => frame
  | frame :: next :: rest => frame ++ SEPARATOR :: interleave (next :: rest)

/-- The consumer's split of a payload on the byte `sep`. -/
def split_on (sep : Nat) : List Nat → List (List Nat)
  | [] => [[]]
  | b :: bs =>
    if b = sep then [] :: split_on sep bs
    else
      match split_on sep bs with
      | [] => [[b]]
      | seg :: segs => (b :: seg) :: segs

/-- Byte-wise lexicographic order of two names: `a` is at most `b`. -/
def bytewise_le : List Nat → List Nat → Bool
  | [], _ => true
  | _ :: _, [] => false
  | a :: as, b :: bs => decide (a < b) || (decide (a = b) && bytewise_le as bs)

/-! ## Conditions on the environment -/

/-- The arguments `read_file` is called with for the given names. -/
def read_events (env : Env) (names : List (List Nat)) : List Event :=
  names.map (fun name => Event.read_file (snprintf_path env.frames_dir name))

/-- Every one of `names` is read by `read_file` as the frame at the same
position of `frames`. -/
def ReadAs (env : Env) (names frames : List (List Nat)) : Prop :=
  List.Forall₂ (fun name frame => read_file env (snprintf_path env.frames_dir name) = some frame)
    names frames

/-- The file `name` of the frame directory opens, `ftell` reports its length
and `fread` delivers all of `content`. -/
def Readable (env : Env) (name content : List Nat) : Prop :=
  content.length < 2 ^ 63 ∧
    env.fopen_rb (snprintf_path env.frames_dir name) = some ⟨(content.length : Int), content⟩

/-- The call of `deflate` that `main` makes on the joined buffer. -/
def deflate_call (env : Env) (joined : List Nat) : Int × List Nat :=
  env.deflate (joined.take (joined.length % 2 ^ 32))
    (env.compressBound joined.length % 2 ^ 32)

/-- The stages after assembly succeed: zlib initialises and finishes the
stream, the output file opens and `fwrite` writes every byte. -/
def LaterStagesOk (env : Env) (joined : List Nat) : Prop :=
  env.deflateInit2 = Z_OK ∧
    (deflate_call env joined).1 = Z_STREAM_END ∧
    env.fopen_wb = true ∧
    env.fwrite (deflate_call env joined).2 = (deflate_call env joined).2.length

/-! ## A sample environment -/

/-- The name `a.txt`. -/
def a_txt : List Nat := [97, 46, 116, 120, 116]

/-- The name `b.txt`. -/
def b_txt : List Nat := [98, 46, 116, 120, 116]

/-- The name `b.png`. -/
def b_png : List Nat := [98, 46, 112, 110, 103]

/-- The name `c.TXT`. -/
def c_TXT : List Nat := [99, 46, 84, 88, 84]

/-- The name `d.txt`. -/
def d_txt : List Nat := [100, 46, 116, 120, 116]

/-- The entries `b.txt`, `c.TXT`, `a.txt` and `b.png`, all plain files. -/
def sample_listing : List Dirent :=
  [⟨b_txt, false⟩, ⟨c_TXT, false⟩, ⟨a_txt, false⟩, ⟨b_png, false⟩]

/-- The entries of `sample_listing` in another order. -/
def sample_listing_reordered : List Dirent :=
  [⟨b_png, false⟩, ⟨a_txt, false⟩, ⟨c_TXT, false⟩, ⟨b_txt, false⟩]

/-- A directory `f` holding `b.txt` = "B", `c.TXT`, `a.txt` = "AA" and
`b.png`, enumerated in that order; every library call succeeds and the
compressor is the identity. -/
def sample_env : Env where
  argc := 3
  frames_dir := [102]
  malloc := fun _ => true
  garbage := fun _ => 255
  readdir := some sample_listing
  wildcard := fun e => decide (e.d_name ≠ b_png)
  fopen_rb := fun path =>
    if path = 102 :: 47 :: a_txt then some ⟨2, [65, 65]⟩
    else if path = 102 :: 47 :: b_txt then some ⟨1, [66]⟩
    else none
  compressBound := fun n => n + 13
  deflateInit2 := 0
  deflate := fun input _ => (1, input)
  fopen_wb := true
  fwrite := fun bytes => bytes.length

/-- A directory without any frame: it holds `b.png` and `c.TXT` only. -/
def no_frames_env : Env :=
  { sample_env with readdir := some [⟨b_png, false⟩, ⟨c_TXT, false⟩] }

/-- A directory holding the subdirectory `d.txt` and the file `a.txt`. -/
def subdir_env : Env :=
  { sample_env with readdir := some [⟨d_txt, true⟩, ⟨a_txt, false⟩] }

/-- A directory `f` holding the empty file `a.txt` and `b.txt` = "B". -/
def empty_file_env : Env :=
  { sample_env with
    readdir := some [⟨b_txt, false⟩, ⟨a_txt, false⟩]
    fopen_rb := fun path =>
      if path = 102 :: 47 :: a_txt then some ⟨0, []⟩
      else if path = 102 :: 47 :: b_txt then some ⟨1, [66]⟩
      else none }

/-- The directory of `empty_file_env` with an allocator that returns a null
pointer for the request `malloc(0)`, as C permits, and serves every other. -/
def null_malloc_env : Env :=
  { empty_file_env with malloc := fun size => decide (size ≠ 0) }

/-! ## Lemmas on C strings -/

theorem cstr_nil : cstr [] = [] := rfl

theorem cstr_cons_zero (cs : List Nat) : cstr (0 :: cs) = [] := by
  simp [cstr, List.takeWhile]

theorem cstr_cons_pos {c : Nat} (h : c ≠ 0) (cs : List Nat) : cstr (c :: cs) = c :: cstr cs := by
  simp [cstr, List.takeWhile, h]

theorem zero_not_mem_cstr (s : List Nat) : 0 ∉ cstr s := by
  intro h
  have := List.mem_takeWhile_imp h
  simp at this

theorem cstr_of_zero_not_mem {s : List Nat} (h : 0 ∉ s) : cstr s = s := by
  unfold cstr
  rw [List.takeWhile_eq_self_iff]
  intro x hx
  have : x ≠ 0 := fun e => h (e ▸ hx)
  simpa using this

theorem cstr_idem (s : List Nat) : cstr (cstr s) = cstr s :=
  cstr_of_zero_not_mem (zero_not_mem_cstr s)

theorem strlen_eq (s : List Nat) : strlen s = (cstr s).length := by
  induction s with
  | nil => rfl
  | cons c cs ih =>
    by_cases h : c = 0
    · subst h; simp [strlen, cstr_cons_zero]
    · simp [strlen, h, cstr_cons_pos h, ih]

theorem cstr_drop (s : List Nat) (k : Nat) (hk : k ≤ strlen s) :
    cstr (s.drop k) = (cstr s).drop k := by
  induction s generalizing k with
  | nil => simp [cstr_nil]
  | cons c cs ih =>
    cases k with
    | zero => simp
    | succ k =>
      by_cases h : c = 0
      · subst h; simp [strlen] at hk
      · simp only [strlen, h, if_false] at hk
        simp only [List.drop_succ_cons, cstr_cons_pos h]
        exact ih k (by omega)

theorem strcmp_eq_zero_iff (a b : List Nat) : strcmp a b = 0 ↔ cstr a = cstr b := by
  induction a generalizing b with
  | nil =>
    cases b with
    | nil => simp [strcmp]
    | cons y ys =>
      by_cases hy : y = 0
      · subst hy; simp [strcmp, cstr_cons_zero, cstr_nil]
      · simp [strcmp, cstr_cons_pos hy, cstr_nil, hy]
  | cons x xs ih =>
    cases b with
    | nil =>
      by_cases hx : x = 0
      · subst hx; simp [strcmp, cstr_cons_zero, cstr_nil]
      · simp [strcmp, cstr_cons_pos hx, cstr_nil, hx]
    | cons y ys =>
      by_cases hxy : x = y
      · subst hxy
        by_cases hx : x = 0
        · subst hx; simp [strcmp, cstr_cons_zero]
        · simp [strcmp, hx, cstr_cons_pos hx, ih]
      · by_cases hx : x = 0
        · subst hx
          have hy : y ≠ 0 := fun e => hxy e.symm
          simp only [strcmp, cstr_cons_zero, cstr_cons_pos hy]
          simp [hxy]
          omega
        · by_cases hy : y = 0
          · subst hy
            simp only [strcmp, cstr_cons_zero, cstr_cons_pos hx]
            simp [hxy]
          · simp only [strcmp, cstr_cons_pos hx, cstr_cons_pos hy]
            simp [hxy]
            omega

theorem strcmp_le_iff (a b : List Nat) :
    strcmp a b ≤ 0 ↔ bytewise_le (cstr a) (cstr b) = true := by
  induction a generalizing b with
  | nil =>
    cases b with
    | nil => simp [strcmp, cstr_nil, bytewise_le]
    | cons y ys => simp [strcmp, cstr_nil, bytewise_le]
  | cons x xs ih =>
    cases b with
    | nil =>
      by_cases hx : x = 0
      · subst hx; simp [strcmp, cstr_cons_zero, cstr_nil, bytewise_le]
      · simp [strcmp, cstr_cons_pos hx, cstr_nil, bytewise_le]
        omega
    | cons y ys =>
      by_cases hx : x = 0
      · subst hx
        by_cases hy : y = 0
        · subst hy; simp [strcmp, cstr_cons_zero, bytewise_le]
        · have hy2 : ¬ (0 = y) := fun e => hy e.symm
          simp [strcmp, cstr_cons_zero, cstr_cons_pos hy, bytewise_le, hy2]
      · by_cases hy : y = 0
        · subst hy
          simp [strcmp, cstr_cons_zero, cstr_cons_pos hx, bytewise_le, hx]
        · by_cases hxy : x = y
          · subst hxy
            simp [strcmp, cstr_cons_pos hx, bytewise_le, hx, ih]
          · simp [strcmp, cstr_cons_pos hx, cstr_cons_pos hy, bytewise_le, hxy]
            omega

/-! ## Lemmas on `filter_name` -/

theorem filter_name_iff (name : List Nat) :
    filter_name name = true ↔ 4 < (cstr name).length ∧ dot_txt <:+ cstr name := by
  have hd : cstr dot_txt = dot_txt := by decide
  simp only [filter_name, Bool.and_eq_true, decide_eq_true_eq, strlen_eq, gt_iff_lt]
  constructor
  · rintro ⟨hlen, hcmp⟩
    refine ⟨hlen, ?_⟩
    rw [strcmp_eq_zero_iff, hd, cstr_drop _ _ (by rw [strlen_eq]; omega)] at hcmp
    rw [← hcmp]
    exact List.drop_suffix _ _
  · rintro ⟨hlen, hsuf⟩
    refine ⟨hlen, ?_⟩
    rw [strcmp_eq_zero_iff, hd, cstr_drop _ _ (by rw [strlen_eq]; omega)]
    have := List.suffix_iff_eq_drop.mp hsuf
    have hl : dot_txt.length = 4 := rfl
    rw [hl] at this
    exact this.symm

/-! ## The byte-wise order and sorting -/

theorem bytewise_le_refl (a : List Nat) : bytewise_le a a = true := by
  induction a with
  | nil => rfl
  | cons x xs ih => simp [bytewise_le, ih]

theorem bytewise_le_total (a b : List Nat) :
    bytewise_le a b = true ∨ bytewise_le b a = true := by
  induction a generalizing b with
  | nil => simp [bytewise_le]
  | cons x xs ih =>
    cases b with
    | nil => simp [bytewise_le]
    | cons y ys =>
      simp only [bytewise_le, Bool.or_eq_true, Bool.and_eq_true, decide_eq_true_eq]
      rcases Nat.lt_trichotomy x y with h | h | h
      · exact Or.inl (Or.inl h)
      · rcases ih ys with h2 | h2
        · exact Or.inl (Or.inr ⟨h, h2⟩)
        · exact Or.inr (Or.inr ⟨h.symm, h2⟩)
      · exact Or.inr (Or.inl h)

theorem bytewise_le_trans {a b c : List Nat} (hab : bytewise_le a b = true)
    (hbc : bytewise_le b c = true) : bytewise_le a c = true := by
  induction a generalizing b c with
  | nil => simp [bytewise_le]
  | cons x xs ih =>
    cases b with
    | nil => simp [bytewise_le] at hab
    | cons y ys =>
      cases c with
      | nil => simp [bytewise_le] at hbc
      | cons z zs =>
        simp only [bytewise_le, Bool.or_eq_true, Bool.and_eq_true, decide_eq_true_eq] at *
        rcases hab with h1 | ⟨h1, h1r⟩
        · rcases hbc with h2 | ⟨h2, _⟩
          · exact Or.inl (by omega)
          · exact Or.inl (by omega)
        · rcases hbc with h2 | ⟨h2, h2r⟩
          · exact Or.inl (by omega)
          · exact Or.inr ⟨by omega, ih h1r h2r⟩

theorem bytewise_le_antisymm {a b : List Nat} (hab : bytewise_le a b = true)
    (hba : bytewise_le b a = true) : a = b := by
  induction a generalizing b with
  | nil =>
    cases b with
    | nil => rfl
    | cons y ys => simp [bytewise_le] at hba
  | cons x xs ih =>
    cases b with
    | nil => simp [bytewise_le] at hab
    | cons y ys =>
      simp only [bytewise_le, Bool.or_eq_true, Bool.and_eq_true, decide_eq_true_eq] at hab hba
      rcases hab with h1 | ⟨h1, h1r⟩
      · rcases hba with h2 | ⟨h2, _⟩ <;> omega
      · rcases hba with h2 | ⟨_, h2r⟩
        · omega
        · rw [h1, ih h1r h2r]

/-- The result of `qsort` is a rearrangement of its input. -/
theorem qsort_perm {α : Type} (compar : α → α → Int) (l : List α) :
    (qsort compar l).Perm l :=
  List.perm_insertionSort _ l

/-- With a comparison that is `strcmp` on a key, the result of `qsort` is in
ascending order of the comparison. -/
theorem qsort_sorted {α : Type} (key : α → List Nat) (l : List α) :
    (qsort (fun a b => strcmp (key a) (key b)) l).Pairwise
      (fun a b => strcmp (key a) (key b) ≤ 0) := by
  haveI : IsTotal α (fun a b => strcmp (key a) (key b) ≤ 0) :=
    ⟨fun a b => by
      simp only [strcmp_le_iff]
      exact bytewise_le_total _ _⟩
  haveI : IsTrans α (fun a b => strcmp (key a) (key b) ≤ 0) :=
    ⟨fun a b c hab hbc => by
      simp only [strcmp_le_iff] at *
      exact bytewise_le_trans hab hbc⟩
  exact List.sorted_insertionSort _ l

/-- The names read off a `qsort` by `strcmp` on a key ascend byte-wise. -/
theorem qsort_names_ascending {α : Type} (key : α → List Nat) (l : List α) :
    ((qsort (fun a b => strcmp (key a) (key b)) l).map (fun e => strdup (key e))).Pairwise
      (fun a b => bytewise_le a b = true) := by
  rw [List.pairwise_map]
  refine (qsort_sorted key l).imp ?_
  intro a b h
  exact (strcmp_le_iff _ _).mp h

/-- Two arrangements of the same names that both ascend byte-wise are equal:
the order `qsort` must produce is unique. -/
theorem ascending_perm_unique {l₁ l₂ : List (List Nat)} (hp : l₁.Perm l₂)
    (h₁ : l₁.Pairwise (fun a b => bytewise_le a b = true))
    (h₂ : l₂.Pairwise (fun a b => bytewise_le a b = true)) : l₁ = l₂ := by
  haveI : IsAntisymm (List Nat) (fun a b => bytewise_le a b = true) :=
    ⟨fun _ _ hab hba => bytewise_le_antisymm hab hba⟩
  exact List.eq_of_perm_of_sorted hp h₁ h₂

/-- The names the Windows loop collects: those of the entries that are not
directories and pass `filter_name`, in enumeration order. -/
theorem find_loop_eq (entries : List Dirent) (names : List (List Nat)) :
    find_loop entries names =
      names ++ (entries.filter (fun e => !e.is_dir && filter_name e.d_name)).map
        (fun e => strdup e.d_name) := by
  induction entries generalizing names with
  | nil => simp [find_loop]
  | cons e rest ih =>
    unfold find_loop
    cases hd : e.is_dir
    · cases hf : filter_name e.d_name
      · simp [ih, List.filter_cons, hd, hf]
      · simp [ih, List.filter_cons, hd, hf]
    · simp [ih, List.filter_cons, hd]

/-- The names found on the POSIX path. -/
theorem discover_posix_eq (env : Env) (entries : List Dirent)
    (h : env.readdir = some entries) :
    discover Platform.posix env =
      some ((qsort compare_frames (entries.filter filter_frames)).map
        (fun e => strdup e.d_name)) := by
  simp [discover, scandir, h]

/-- Whatever ascending arrangement of the accepted entries `scandir` returns,
the names read off it are the ones `discover` computes. -/
theorem discover_posix_of_ascending (env : Env) (entries sorted : List Dirent)
    (hdir : env.readdir = some entries)
    (hperm : sorted.Perm (entries.filter filter_frames))
    (hasc : sorted.Pairwise (fun a b => compare_frames a b ≤ 0)) :
    discover Platform.posix env = some (sorted.map (fun e => strdup e.d_name)) := by
  rw [discover_posix_eq env entries hdir]
  congr 1
  apply ascending_perm_unique
  · exact ((qsort_perm _ _).map _).trans (hperm.symm.map _)
  · exact qsort_names_ascending Dirent.d_name _
  · rw [List.pairwise_map]
    exact hasc.imp (fun {a} {b} h => (strcmp_le_iff a.d_name b.d_name).mp h)

/-! ## The assembly loop -/

theorem interleave_cons_cons (f g : List Nat) (rest : List (List Nat)) :
    interleave (f :: g :: rest) = f ++ SEPARATOR :: interleave (g :: rest) := rfl

theorem interleave_length (frames : List (List Nat)) :
    (interleave frames).length = (frames.map List.length).sum + (frames.length - 1) := by
  induction frames with
  | nil => rfl
  | cons f rest ih =>
    cases rest with
    | nil => simp [interleave]
    | cons g rest =>
      rw [interleave_cons_cons, List.length_append, List.length_cons, ih]
      simp
      omega

theorem memcpy_nil (mem : Nat → Nat) (dst : Nat) : memcpy mem dst [] 0 = mem := by
  funext a
  simp [memcpy]

theorem memcpy_append (mem : Nat → Nat) (dst d2 nx ny n : Nat) (xs ys : List Nat)
    (hx : nx = xs.length) (hy : ny = ys.length) (hd : d2 = dst + nx) (hn : n = nx + ny) :
    memcpy (memcpy mem dst xs nx) d2 ys ny = memcpy mem dst (xs ++ ys) n := by
  subst hx hy hd hn
  funext a
  simp only [memcpy]
  by_cases h1 : dst + xs.length ≤ a
  · by_cases h2 : a < dst + xs.length + ys.length
    · rw [if_pos ⟨h1, h2⟩, if_pos ⟨by omega, by omega⟩,
        List.getD_append_right _ _ _ _ (by omega)]
      congr 1
      omega
    · rw [if_neg (fun h => h2 h.2), if_neg (fun h => by omega), if_neg (fun h => by omega)]
  · rw [if_neg (fun h => h1 h.1)]
    by_cases h3 : dst ≤ a
    · rw [if_pos ⟨h3, by omega⟩, if_pos ⟨h3, by omega⟩,
        List.getD_append _ _ _ _ (by omega)]
    · rw [if_neg (fun h => h3 h.1), if_neg (fun h => h3 h.1)]

theorem range_step (o a b n : Nat) (hn : n = a + 1 + b) :
    List.range' o a ++ ((o + a) :: List.range' (o + a + 1) b) = List.range' o n := by
  subst hn
  have e1 : (o + a) :: List.range' (o + a + 1) b = List.range' (o + a) (b + 1) := by
    rw [List.range'_succ]
  rw [e1, List.range'_append_1]
  congr 1
  omega

theorem store_eq_memcpy (mem : Nat → Nat) (dst v : Nat) :
    store mem dst v = memcpy mem dst [v] 1 := by
  funext a
  simp only [store, memcpy]
  by_cases h : a = dst
  · subst h; simp
  · rw [if_neg h, if_neg (fun h2 => h (by omega))]

theorem buffer_memcpy (mem : Nat → Nat) (xs : List Nat) :
    buffer (memcpy mem 0 xs xs.length) xs.length = xs := by
  apply List.ext_getElem
  · simp [buffer]
  · intro k h1 h2
    simp only [buffer, List.getElem_map, List.getElem_range, memcpy]
    rw [if_pos ⟨by omega, by omega⟩]
    simp [List.getElem?_eq_getElem h2]

/-- The assembly loop over the frames from index `i` to the last writes
their interleaving at `offset` and advances `offset` by its length, storing to
each offset in between once, in ascending order. -/
theorem assemble_from_eq (n : Nat) (frames : List (List Nat)) (i : Nat) (s : Asm)
    (hn : i + frames.length = n) :
    assemble_from n i frames s =
      { joined := memcpy s.joined s.offset (interleave frames) (interleave frames).length
        offset := s.offset + (interleave frames).length
        stores := s.stores ++ List.range' s.offset (interleave frames).length } := by
  induction frames generalizing i s with
  | nil => simp [assemble_from, interleave, memcpy_nil]
  | cons f rest ih =>
    cases rest with
    | nil =>
      have hi : ¬ i < n - 1 := by simp at hn; omega
      simp [assemble_from, interleave, hi]
    | cons g rest =>
      have hi : i < n - 1 := by simp at hn; omega
      have hn2 : i + 1 + (g :: rest).length = n := by simp at hn ⊢; omega
      unfold assemble_from
      simp only [hi, if_true]
      rw [ih (i + 1) _ hn2, interleave_cons_cons]
      simp only [Asm.mk.injEq]
      refine ⟨?_, ?_, ?_⟩
      · rw [store_eq_memcpy,
          memcpy_append s.joined s.offset (s.offset + f.length) f.length 1 (f.length + 1)
            f [SEPARATOR] rfl rfl rfl rfl,
          memcpy_append s.joined s.offset (s.offset + f.length + 1) (f.length + 1)
            (interleave (g :: rest)).length (f ++ SEPARATOR :: interleave (g :: rest)).length
            (f ++ [SEPARATOR]) (interleave (g :: rest)) (by simp) rfl (by omega)
            (by simp; omega)]
        simp
      · simp only [List.length_append, List.length_cons]
        omega
      · simp only [List.append_assoc, List.singleton_append]
        congr 1
        exact range_step _ _ _ _ (by simp; omega)

theorem assemble_eq (frames : List (List Nat)) (mem : Nat → Nat) :
    assemble frames mem =
      { joined := memcpy mem 0 (interleave frames) (interleave frames).length
        offset := (interleave frames).length
        stores := List.range (interleave frames).length } := by
  unfold assemble
  rw [assemble_from_eq _ frames 0 _ (by simp)]
  simp [List.range_eq_range']

theorem joined_buffer_eq (frames : List (List Nat)) (mem : Nat → Nat) :
    joined_buffer frames (interleave frames).length mem = interleave frames := by
  unfold joined_buffer
  rw [assemble_eq]
  exact buffer_memcpy mem _

/-! ## The load loop -/

theorem load_from_ok (env : Env) (n : Nat) (names frames : List (List Nat))
    (h : ReadAs env names frames) (i : Nat) (acc : List (List Nat)) (total : Nat)
    (tr : List Event) (hn : i + names.length = n) :
    load_from env n i names acc total tr =
      (some ⟨acc ++ frames, total + (interleave frames).length⟩,
        tr ++ read_events env names) := by
  unfold ReadAs at h
  induction h generalizing i acc total tr with
  | nil => simp [load_from, interleave, read_events]
  | @cons name frame names frames h1 h2 ih =>
    unfold load_from
    simp only [h1]
    have hn2 : i + 1 + names.length = n := by simp at hn; omega
    rw [ih (i + 1) _ _ _ hn2]
    have hlen := List.Forall₂.length_eq h2
    cases frames with
    | nil =>
      have : names.length = 0 := by simpa using hlen
      have hi : ¬ i < n - 1 := by omega
      simp [hi, interleave, read_events]
    | cons g rest =>
      have : names.length = rest.length + 1 := by simpa using hlen
      have hi : i < n - 1 := by omega
      simp only [hi, if_true, interleave_cons_cons, List.length_append, List.length_cons,
        read_events, List.map_cons, List.append_assoc, List.singleton_append]
      congr 3
      omega

theorem load_frames_ok (env : Env) (names frames : List (List Nat))
    (h : ReadAs env names frames) :
    load_frames env names =
      (some ⟨frames, (interleave frames).length⟩, read_events env names) := by
  unfold load_frames
  rw [load_from_ok env _ names frames h 0 [] 0 [] (by simp)]
  simp

/-! ## `main` up to the joined buffer -/

theorem readAs_length {env : Env} {names frames : List (List Nat)}
    (h : ReadAs env names frames) : names.length = frames.length :=
  List.Forall₂.length_eq h

theorem count_interleave (frames : List (List Nat)) :
    (interleave frames).count SEPARATOR =
      (frames.length - 1) + (frames.map (List.count SEPARATOR)).sum := by
  induction frames with
  | nil => rfl
  | cons f rest ih =>
    cases rest with
    | nil => simp [interleave]
    | cons g rest =>
      rw [interleave_cons_cons, List.count_append, List.count_cons_self, ih]
      simp
      omega

theorem split_on_frame (frame : List Nat) (h : SEPARATOR ∉ frame) :
    split_on SEPARATOR frame = [frame] := by
  induction frame with
  | nil => rfl
  | cons b bs ih =>
    have hb : b ≠ SEPARATOR := fun e => h (by simp [e])
    have hbs : SEPARATOR ∉ bs := fun e => h (by simp [e])
    simp [split_on, hb, ih hbs]

theorem split_on_append (frame more : List Nat) (h : SEPARATOR ∉ frame) :
    split_on SEPARATOR (frame ++ SEPARATOR :: more) = frame :: split_on SEPARATOR more := by
  induction frame with
  | nil => simp [split_on]
  | cons b bs ih =>
    have hb : b ≠ SEPARATOR := fun e => h (by simp [e])
    have hbs : SEPARATOR ∉ bs := fun e => h (by simp [e])
    simp [split_on, hb, ih hbs]

theorem split_on_interleave (frames : List (List Nat)) (hne : frames ≠ [])
    (h : ∀ frame ∈ frames, SEPARATOR ∉ frame) :
    split_on SEPARATOR (interleave frames) = frames := by
  induction frames with
  | nil => exact absurd rfl hne
  | cons f rest ih =>
    cases rest with
    | nil => simpa [interleave] using split_on_frame f (h f (by simp))
    | cons g rest =>
      rw [interleave_cons_cons, split_on_append f _ (h f (by simp)),
        ih (by simp) (fun x hx => h x (List.mem_cons_of_mem _ hx))]

/-- When discovery finds `names`, every file is read and the allocations
succeed, `main` assembles the interleaving of the frames, after one call of
`read_file` per name, in order. -/
theorem main_joined (p : Platform) (env : Env) (names frames : List (List Nat))
    (hargc : env.argc = 3) (hmalloc : ∀ size, env.malloc size = true)
    (hdisc : discover p env = some names) (hne : frames ≠ [])
    (hread : ReadAs env names frames) :
    (main p env).joined = some (interleave frames) ∧
      read_events env names <+: (main p env).trace := by
  have hlen : names.length ≠ 0 := by
    rw [readAs_length hread]
    exact fun h => hne (List.length_eq_zero.mp h)
  unfold main
  simp only [hargc, hmalloc, hdisc, load_frames_ok env names frames hread, joined_buffer_eq,
    ne_eq, not_true_eq_false, if_false, hlen, Bool.true_eq_false]
  split_ifs <;> simp

/-! ## Discovery does not depend on the enumeration order -/

theorem discover_win32_eq (env : Env) (entries : List Dirent)
    (h : env.readdir = some entries) :
    discover Platform.win32 env =
      if entries.filter env.wildcard = [] then none
      else some (qsort compare_strings
        (((entries.filter env.wildcard).filter
          (fun e => !e.is_dir && filter_name e.d_name)).map (fun e => strdup e.d_name))) := by
  simp only [discover, h]
  cases hf : entries.filter env.wildcard with
  | nil => simp
  | cons ffd rest => simp [find_loop_eq]

/-- The array `qsort` makes of NUL-free names with `compare_strings` ascends
byte-wise. -/
theorem qsort_strings_ascending (names : List (List Nat)) (h : ∀ name ∈ names, 0 ∉ name) :
    (qsort compare_strings names).Pairwise (fun a b => bytewise_le a b = true) := by
  have hs := qsort_sorted (fun name : List Nat => name) names
  refine List.Pairwise.imp_of_mem ?_ hs
  intro a b ha hb hab
  have ha2 := h a ((qsort_perm _ names).mem_iff.mp ha)
  have hb2 := h b ((qsort_perm _ names).mem_iff.mp hb)
  have := (strcmp_le_iff a b).mp hab
  rwa [cstr_of_zero_not_mem ha2, cstr_of_zero_not_mem hb2] at this

theorem discover_perm (p : Platform) (env : Env) (l₁ l₂ : List Dirent)
    (hperm : l₁.Perm l₂) :
    discover p { env with readdir := some l₁ } =
      discover p { env with readdir := some l₂ } := by
  cases p with
  | posix =>
    rw [discover_posix_eq _ l₁ rfl, discover_posix_eq _ l₂ rfl]
    congr 1
    apply ascending_perm_unique
    · exact ((qsort_perm _ _).map _).trans
        (((hperm.filter _).map _).trans ((qsort_perm _ _).map _).symm)
    · exact qsort_names_ascending Dirent.d_name _
    · exact qsort_names_ascending Dirent.d_name _
  | win32 =>
    rw [discover_win32_eq _ l₁ rfl, discover_win32_eq _ l₂ rfl]
    have hw : (l₁.filter env.wildcard).Perm (l₂.filter env.wildcard) := hperm.filter _
    by_cases h1 : l₁.filter env.wildcard = []
    · have h2 : l₂.filter env.wildcard = [] := by
        rw [h1] at hw
        exact List.Perm.nil_eq hw |>.symm
      simp [h1, h2]
    · have h2 : l₂.filter env.wildcard ≠ [] := by
        intro e
        rw [e] at hw
        exact h1 (List.Perm.eq_nil hw)
      simp only [h1, h2, if_false]
      congr 1
      have hz : ∀ (l : List Dirent),
          ∀ name ∈ l.map (fun e => strdup e.d_name), 0 ∉ name := by
        intro l name hname
        obtain ⟨e, _, rfl⟩ := List.mem_map.mp hname
        exact zero_not_mem_cstr _
      apply ascending_perm_unique
      · exact (qsort_perm _ _).trans
          ((((hw.filter _).map _)).trans (qsort_perm _ _).symm)
      · exact qsort_strings_ascending _ (hz _)
      · exact qsort_strings_ascending _ (hz _)

theorem read_file_readdir (env : Env) (r : Option (List Dirent)) (path : List Nat) :
    read_file { env with readdir := r } path = read_file env path := rfl

theorem load_from_readdir (env : Env) (r : Option (List Dirent)) (n : Nat)
    (names : List (List Nat)) (i : Nat) (acc : List (List Nat)) (total : Nat)
    (tr : List Event) :
    load_from { env with readdir := r } n i names acc total tr =
      load_from env n i names acc total tr := by
  induction names generalizing i acc total tr with
  | nil => rfl
  | cons name rest ih =>
    unfold load_from
    simp only [read_file_readdir]
    cases read_file env (snprintf_path env.frames_dir name) with
    | none => rfl
    | some buf => exact ih _ _ _ _

/-- The function `main` uses the directory only through `discover`. -/
theorem main_readdir (p : Platform) (env : Env) (r₁ r₂ : Option (List Dirent))
    (h : discover p { env with readdir := r₁ } = discover p { env with readdir := r₂ }) :
    main p { env with readdir := r₁ } = main p { env with readdir := r₂ } := by
  unfold main
  simp only [h, load_frames, load_from_readdir]

/-- With no entry accepted by `filter_name`, discovery fails or finds nothing. -/
theorem discover_none_accepted (p : Platform) (env : Env) (entries : List Dirent)
    (hdir : env.readdir = some entries)
    (hnone : ∀ e ∈ entries, filter_name e.d_name = false) :
    discover p env = none ∨ discover p env = some [] := by
  cases p with
  | posix =>
    right
    rw [discover_posix_eq env entries hdir]
    have : entries.filter filter_frames = [] := by
      rw [List.filter_eq_nil_iff]
      intro e he
      simp [filter_frames, hnone e he]
    rw [this]
    rfl
  | win32 =>
    rw [discover_win32_eq env entries hdir]
    by_cases h1 : entries.filter env.wildcard = []
    · left; simp [h1]
    · right
      simp only [h1, if_false]
      have : (entries.filter env.wildcard).filter
          (fun e => !e.is_dir && filter_name e.d_name) = [] := by
        rw [List.filter_eq_nil_iff]
        intro e he
        have := hnone e (List.mem_of_mem_filter he)
        simp [this]
      rw [this]
      rfl

/-! ## Reading files and the stages after assembly -/

theorem read_file_readable (env : Env) (name content : List Nat)
    (h : Readable env name content) (hm : env.malloc content.length = true) :
    read_file env (snprintf_path env.frames_dir name) = some content := by
  obtain ⟨hlen, hopen⟩ := h
  have hmod : ((content.length : Int) % 2 ^ 64).toNat = content.length := by
    rw [Int.emod_eq_of_lt (by omega) (by omega)]
    simp
  simp only [read_file, hopen, hmod, hm]
  simp

/-- On an empty file `read_file` asks for `malloc(0)`, and succeeds exactly
when that call returns a non-null pointer. -/
theorem read_file_empty_iff (env : Env) (name : List Nat) (h : Readable env name []) :
    read_file env (snprintf_path env.frames_dir name) = some [] ↔ env.malloc 0 = true := by
  obtain ⟨_, hopen⟩ := h
  constructor
  · intro hr
    cases hm : env.malloc 0
    · simp [read_file, hopen, hm] at hr
    · rfl
  · intro hm
    simp [read_file, hopen, hm]

theorem readAs_of_readable (env : Env) (names frames : List (List Nat))
    (hmalloc : ∀ size, env.malloc size = true)
    (h : List.Forall₂ (Readable env) names frames) : ReadAs env names frames := by
  unfold ReadAs
  exact h.imp (fun {name} {frame} hr => read_file_readable env name frame hr (hmalloc _))

theorem interleave_cons (f : List Nat) (post : List (List Nat)) :
    interleave (f :: post) = f ++ (post.map (fun g => SEPARATOR :: g)).flatten := by
  induction post generalizing f with
  | nil => simp [interleave]
  | cons g rest ih => rw [interleave_cons_cons, ih g]; simp

/-- The interleaving around one frame: every earlier frame is followed by a
separator, every later frame is preceded by one. -/
theorem interleave_split (pre : List (List Nat)) (f : List Nat) (post : List (List Nat)) :
    interleave (pre ++ f :: post) =
      (pre.map (fun g => g ++ [SEPARATOR])).flatten ++ f ++
        (post.map (fun g => SEPARATOR :: g)).flatten := by
  induction pre with
  | nil => simp [interleave_cons]
  | cons g rest ih =>
    cases rest with
    | nil => simp [interleave_cons]
    | cons g2 rest2 =>
      rw [List.cons_append, List.cons_append, interleave_cons_cons, ← List.cons_append, ih]
      simp

/-- With every stage succeeding, `main` returns 0 after reading each frame
in order and writing the compressed joined buffer. -/
theorem main_success (p : Platform) (env : Env) (names frames : List (List Nat))
    (hargc : env.argc = 3) (hmalloc : ∀ size, env.malloc size = true)
    (hdisc : discover p env = some names) (hne : frames ≠ [])
    (hread : ReadAs env names frames) (hlater : LaterStagesOk env (interleave frames)) :
    main p env =
      ⟨0, read_events env names ++
          [Event.fopen_wb, Event.fwrite (deflate_call env (interleave frames)).2],
        some (interleave frames)⟩ := by
  have hlen : names.length ≠ 0 := by
    rw [readAs_length hread]
    exact fun h => hne (List.length_eq_zero.mp h)
  obtain ⟨h1, h2, h3, h4⟩ := hlater
  unfold deflate_call at h2 h4
  unfold main
  simp only [hargc, hmalloc, hdisc, load_frames_ok env names frames hread, joined_buffer_eq,
    ne_eq, not_true_eq_false, if_false, hlen, Bool.true_eq_false, h1, h2, h3, h4, deflate_call]

/-! ## The claims -/

/-- C1: for every list of frames, read by the load loop in this order, the
buffer built by the assembly loop holds the frames' bytes one after the other
with exactly one byte 0x01 between consecutive frames, none before the first
and none after the last, whatever the allocation held before; a single frame
gives a buffer equal to the frame. -/
theorem joined_is_interleave (env : Env) (names frames : List (List Nat))
    (mem : Nat → Nat) (hread : ReadAs env names frames) :
    ∃ total_size, (load_frames env names).1 = some ⟨frames, total_size⟩ ∧
      joined_buffer frames total_size mem = interleave frames ∧
      (∀ frame, frames = [frame] → joined_buffer frames total_size mem = frame) := by
  refine ⟨(interleave frames).length, ?_, joined_buffer_eq frames mem, ?_⟩
  · rw [load_frames_ok env names frames hread]
  · intro frame hf
    rw [joined_buffer_eq, hf]
    rfl

/-- Witness of C1 on the sample directory: `a.txt` = "AA" and `b.txt` = "B". -/
theorem joined_is_interleave_witness :
    ReadAs sample_env [a_txt, b_txt] [[65, 65], [66]] ∧
      ∃ total_size,
        (load_frames sample_env [a_txt, b_txt]).1 = some ⟨[[65, 65], [66]], total_size⟩ ∧
        joined_buffer [[65, 65], [66]] total_size (fun _ => 0) = interleave [[65, 65], [66]] ∧
        (∀ frame, [[65, 65], [66]] = [frame] →
          joined_buffer [[65, 65], [66]] total_size (fun _ => 0) = frame) :=
  ⟨List.Forall₂.cons rfl (List.Forall₂.cons rfl List.Forall₂.nil),
    joined_is_interleave sample_env [a_txt, b_txt] [[65, 65], [66]] (fun _ => 0)
      (List.Forall₂.cons rfl (List.Forall₂.cons rfl List.Forall₂.nil))⟩

/-- C2: when no frame contains the byte 0x01, splitting the joined buffer that
`main` assembles on 0x01 gives back exactly the list of frames that were
read, in order, empty frames included. -/
theorem split_recovers_frames (p : Platform) (env : Env) (names frames : List (List Nat))
    (hargc : env.argc = 3) (hmalloc : ∀ size, env.malloc size = true)
    (hdisc : discover p env = some names) (hne : frames ≠ [])
    (hread : ReadAs env names frames) (hsep : ∀ frame ∈ frames, SEPARATOR ∉ frame) :
    ∃ joined, (main p env).joined = some joined ∧ split_on SEPARATOR joined = frames :=
  ⟨interleave frames, (main_joined p env names frames hargc hmalloc hdisc hne hread).1,
    split_on_interleave frames hne hsep⟩

/-- Witness of C2: the frames "AA" and "B" of the sample directory. -/
theorem split_recovers_frames_witness :
    sample_env.argc = 3 ∧ (∀ size, sample_env.malloc size = true) ∧
      discover Platform.posix sample_env = some [a_txt, b_txt] ∧
      [[65, 65], [66]] ≠ [] ∧
      ReadAs sample_env [a_txt, b_txt] [[65, 65], [66]] ∧
      (∀ frame ∈ [[65, 65], [66]], SEPARATOR ∉ frame) ∧
      ∃ joined, (main Platform.posix sample_env).joined = some joined ∧
        split_on SEPARATOR joined = [[65, 65], [66]] :=
  ⟨rfl, fun _ => rfl, by decide, by decide,
    List.Forall₂.cons rfl (List.Forall₂.cons rfl List.Forall₂.nil), by decide,
    split_recovers_frames Platform.posix sample_env [a_txt, b_txt] [[65, 65], [66]] rfl
      (fun _ => rfl) (by decide) (by decide)
      (List.Forall₂.cons rfl (List.Forall₂.cons rfl List.Forall₂.nil)) (by decide)⟩

/-- C3: on the `scandir` path the names found are a rearrangement of exactly
the listed names that `filter_frames` accepts, they ascend in byte-wise
lexicographic order, and the frames are loaded and copied into the joined
buffer in that order: the frame at position i is the file of the name at
position i. -/
theorem discovery_sorted_permutation (env : Env) (entries : List Dirent)
    (hdir : env.readdir = some entries) :
    ∃ names, discover Platform.posix env = some names ∧
      names.Perm ((entries.filter filter_frames).map (fun e => strdup e.d_name)) ∧
      names.Pairwise (fun a b => bytewise_le a b = true) ∧
      ∀ frames, ReadAs env names frames →
        ∃ total_size, (load_frames env names).1 = some ⟨frames, total_size⟩ ∧
          joined_buffer frames total_size env.garbage = interleave frames := by
  refine ⟨_, discover_posix_eq env entries hdir, (qsort_perm _ _).map _,
    qsort_names_ascending Dirent.d_name _, ?_⟩
  intro frames hread
  refine ⟨(interleave frames).length, ?_, joined_buffer_eq frames _⟩
  rw [load_frames_ok env _ frames hread]

/-- Witness of C3 on the sample directory. -/
theorem discovery_sorted_permutation_witness :
    sample_env.readdir = some sample_listing ∧
      ∃ names, discover Platform.posix sample_env = some names ∧
        names.Perm ((sample_listing.filter filter_frames).map (fun e => strdup e.d_name)) ∧
        names.Pairwise (fun a b => bytewise_le a b = true) ∧
        ∀ frames, ReadAs sample_env names frames →
          ∃ total_size, (load_frames sample_env names).1 = some ⟨frames, total_size⟩ ∧
            joined_buffer frames total_size sample_env.garbage = interleave frames :=
  ⟨rfl, discovery_sorted_permutation sample_env _ rfl⟩

/-- C4 as stated fails: the name `.txt` ends in `.txt` and is rejected. -/
theorem filter_name_rejects_bare_suffix :
    dot_txt <:+ cstr dot_txt ∧ filter_name dot_txt = false :=
  ⟨by decide, by decide⟩

/-- C4, amended: `filter_name` accepts a name if and only if the name is
longer than four bytes and ends in the exact, case-sensitive suffix `.txt`;
among `a.txt`, `b.png` and `c.TXT` only `a.txt` is accepted. -/
theorem filter_name_accepts_iff :
    (∀ name, filter_name name = true ↔ 4 < (cstr name).length ∧ dot_txt <:+ cstr name) ∧
      filter_name a_txt = true ∧ filter_name b_png = false ∧ filter_name c_TXT = false :=
  ⟨filter_name_iff, by decide, by decide, by decide⟩

/-- C5: for the n frames read by the load loop, the `total_size` the loop
computes is the sum of the frame lengths plus n - 1, the assembly loop ends with
`offset` equal to it, the buffer has that length, and the loop stores to each
of the offsets 0, ..., total_size - 1 exactly once and to no other. -/
theorem total_size_matches_offset (env : Env) (names frames : List (List Nat))
    (mem : Nat → Nat) (hread : ReadAs env names frames) :
    ∃ total_size, (load_frames env names).1 = some ⟨frames, total_size⟩ ∧
      total_size = (frames.map List.length).sum + (frames.length - 1) ∧
      (assemble frames mem).offset = total_size ∧
      (joined_buffer frames total_size mem).length = total_size ∧
      (assemble frames mem).stores = List.range total_size := by
  refine ⟨(interleave frames).length, ?_, interleave_length frames, ?_, ?_, ?_⟩
  · rw [load_frames_ok env names frames hread]
  · rw [assemble_eq]
  · rw [joined_buffer_eq]
  · rw [assemble_eq]

/-- Witness of C5: the two frames of the sample directory give `total_size` 4. -/
theorem total_size_matches_offset_witness :
    ReadAs sample_env [a_txt, b_txt] [[65, 65], [66]] ∧
      ∃ total_size,
        (load_frames sample_env [a_txt, b_txt]).1 = some ⟨[[65, 65], [66]], total_size⟩ ∧
        total_size = ([[65, 65], [66]].map List.length).sum + ([[65, 65], [66]].length - 1) ∧
        (assemble [[65, 65], [66]] (fun _ => 0)).offset = total_size ∧
        (joined_buffer [[65, 65], [66]] total_size (fun _ => 0)).length = total_size ∧
        (assemble [[65, 65], [66]] (fun _ => 0)).stores = List.range total_size :=
  ⟨List.Forall₂.cons rfl (List.Forall₂.cons rfl List.Forall₂.nil),
    total_size_matches_offset sample_env [a_txt, b_txt] [[65, 65], [66]] (fun _ => 0)
      (List.Forall₂.cons rfl (List.Forall₂.cons rfl List.Forall₂.nil))⟩

/-- C6: for the n frames read by the load loop, the number of bytes 0x01 in
the joined buffer is n - 1 plus the number of bytes 0x01 inside the frames:
the assembly inserts exactly n - 1 of them. -/
theorem separator_count (env : Env) (names frames : List (List Nat))
    (mem : Nat → Nat) (hread : ReadAs env names frames) :
    ∃ total_size, (load_frames env names).1 = some ⟨frames, total_size⟩ ∧
      (joined_buffer frames total_size mem).count SEPARATOR =
        (frames.length - 1) + (frames.map (List.count SEPARATOR)).sum := by
  refine ⟨(interleave frames).length, ?_, ?_⟩
  · rw [load_frames_ok env names frames hread]
  · rw [joined_buffer_eq, count_interleave]

/-- Witness of C6 on the sample directory. -/
theorem separator_count_witness :
    ReadAs sample_env [a_txt, b_txt] [[65, 65], [66]] ∧
      ∃ total_size,
        (load_frames sample_env [a_txt, b_txt]).1 = some ⟨[[65, 65], [66]], total_size⟩ ∧
        (joined_buffer [[65, 65], [66]] total_size (fun _ => 0)).count SEPARATOR =
          ([[65, 65], [66]].length - 1) + ([[65, 65], [66]].map (List.count SEPARATOR)).sum :=
  ⟨List.Forall₂.cons rfl (List.Forall₂.cons rfl List.Forall₂.nil),
    separator_count sample_env [a_txt, b_txt] [[65, 65], [66]] (fun _ => 0)
      (List.Forall₂.cons rfl (List.Forall₂.cons rfl List.Forall₂.nil))⟩

/-- C7: when no entry of the listing is accepted by `filter_name`, `main`
returns 1 with an empty trace: no call of `read_file`, no `fopen` of the
output file and no `fwrite` happens, on either platform. -/
theorem no_frames_exit (p : Platform) (env : Env) (entries : List Dirent)
    (hdir : env.readdir = some entries)
    (hnone : ∀ e ∈ entries, filter_name e.d_name = false) :
    (main p env).status = 1 ∧ (main p env).trace = [] := by
  unfold main
  by_cases h1 : env.argc ≠ 3
  · rw [if_pos h1]
    exact ⟨rfl, rfl⟩
  · rw [if_neg h1]
    by_cases h2 : env.malloc (64 * sizeof_ptr) = false
    · rw [if_pos h2]
      exact ⟨rfl, rfl⟩
    · rw [if_neg h2]
      rcases discover_none_accepted p env entries hdir hnone with h | h
      · rw [h]
        exact ⟨rfl, rfl⟩
      · rw [h]
        exact ⟨rfl, rfl⟩

/-- Witness of C7: a directory holding `b.png` and `c.TXT` only. -/
theorem no_frames_exit_witness :
    no_frames_env.readdir = some [⟨b_png, false⟩, ⟨c_TXT, false⟩] ∧
      (∀ e ∈ [(⟨b_png, false⟩ : Dirent), ⟨c_TXT, false⟩],
        filter_name e.d_name = false) ∧
      (main Platform.posix no_frames_env).status = 1 ∧
      (main Platform.posix no_frames_env).trace = [] :=
  ⟨rfl, by decide,
    no_frames_exit Platform.posix no_frames_env [⟨b_png, false⟩, ⟨c_TXT, false⟩] rfl
      (by decide)⟩

/-- C8 on `main`: for a directory holding the subdirectory `d.txt` and the
file `a.txt`, the `scandir` path selects the subdirectory and calls
`read_file` on it, while the Windows path selects `a.txt` only. -/
theorem posix_selects_subdirectory :
    discover Platform.posix subdir_env = some [a_txt, d_txt] ∧
      Event.read_file (102 :: 47 :: d_txt) ∈ (main Platform.posix subdir_env).trace ∧
      discover Platform.win32 subdir_env = some [a_txt] :=
  ⟨by decide, by decide, by decide⟩

/-- C9: two runs that differ only in the order in which the directory
enumerates the same entries find the same names in the same order and have
the same outcome: the same exit status, the same calls with the same bytes
written to the output file, and the same joined buffer. -/
theorem enumeration_order_irrelevant (p : Platform) (env : Env) (l₁ l₂ : List Dirent)
    (hperm : l₁.Perm l₂) :
    discover p { env with readdir := some l₁ } = discover p { env with readdir := some l₂ } ∧
      main p { env with readdir := some l₁ } = main p { env with readdir := some l₂ } :=
  ⟨discover_perm p env l₁ l₂ hperm,
    main_readdir p env _ _ (discover_perm p env l₁ l₂ hperm)⟩

/-- Witness of C9: the sample directory in two enumeration orders. -/
theorem enumeration_order_irrelevant_witness :
    sample_listing.Perm sample_listing_reordered ∧
      discover Platform.posix { sample_env with readdir := some sample_listing } =
        discover Platform.posix { sample_env with readdir := some sample_listing_reordered } ∧
      main Platform.posix { sample_env with readdir := some sample_listing } =
        main Platform.posix { sample_env with readdir := some sample_listing_reordered } :=
  ⟨by decide,
    enumeration_order_irrelevant Platform.posix sample_env sample_listing
      sample_listing_reordered (by decide)⟩

/-- C10 as stated fails: with an allocator that returns a null pointer for
`malloc(0)` and serves every other request, the empty file `a.txt` opens and
is readable, every later stage would succeed, and yet `read_file` reports
failure on it and `main` returns 1 right after that call, without a joined
buffer and without touching the output file. -/
theorem empty_frame_rejected_by_null_malloc :
    null_malloc_env.argc = 3 ∧
      (∀ size, size ≠ 0 → null_malloc_env.malloc size = true) ∧
      discover Platform.posix null_malloc_env = some [a_txt, b_txt] ∧
      List.Forall₂ (Readable null_malloc_env) [a_txt, b_txt] [[], [66]] ∧
      LaterStagesOk null_malloc_env (interleave [[], [66]]) ∧
      read_file null_malloc_env (snprintf_path null_malloc_env.frames_dir a_txt) = none ∧
      main Platform.posix null_malloc_env =
        ⟨1, [Event.read_file (102 :: 47 :: a_txt)], none⟩ :=
  ⟨rfl, fun size h => by simp [null_malloc_env, h], by decide,
    List.Forall₂.cons ⟨by decide, rfl⟩
      (List.Forall₂.cons ⟨by decide, rfl⟩ List.Forall₂.nil),
    ⟨rfl, rfl, rfl, rfl⟩, by decide, by decide⟩

/-- C10, amended: when the allocator serves every request (the request
`malloc(0)` for the empty file included) and every stage succeeds, a frame
set with an empty file is packed: `read_file` returns the empty file
as a frame of length 0, the load loop keeps it among the frames, the run
returns 0, and in the joined buffer the empty frame contributes no byte while
each frame after it is still preceded by one byte 0x01. -/
theorem empty_frame_tolerated (p : Platform) (env : Env) (names : List (List Nat))
    (pre post : List (List Nat))
    (hargc : env.argc = 3) (hmalloc : ∀ size, env.malloc size = true)
    (hdisc : discover p env = some names)
    (hfiles : List.Forall₂ (Readable env) names (pre ++ [] :: post))
    (hlater : LaterStagesOk env (interleave (pre ++ [] :: post))) :
    (∀ name, Readable env name [] →
        read_file env (snprintf_path env.frames_dir name) = some []) ∧
      (load_frames env names).1 =
        some ⟨pre ++ [] :: post, (interleave (pre ++ [] :: post)).length⟩ ∧
      interleave (pre ++ [] :: post) =
        (pre.map (fun g => g ++ [SEPARATOR])).flatten ++
          (post.map (fun g => SEPARATOR :: g)).flatten ∧
      main p env =
        ⟨0, read_events env names ++
            [Event.fopen_wb, Event.fwrite (deflate_call env (interleave (pre ++ [] :: post))).2],
          some (interleave (pre ++ [] :: post))⟩ := by
  have hread := readAs_of_readable env names _ hmalloc hfiles
  refine ⟨fun name h => read_file_readable env name [] h (hmalloc _), ?_, ?_, ?_⟩
  · rw [load_frames_ok env names _ hread]
  · rw [interleave_split]; simp
  · exact main_success p env names _ hargc hmalloc hdisc (by simp) hread hlater

/-- Witness of C10: the empty file `a.txt` followed by `b.txt` = "B". -/
theorem empty_frame_tolerated_witness :
    empty_file_env.argc = 3 ∧ (∀ size, empty_file_env.malloc size = true) ∧
      discover Platform.posix empty_file_env = some [a_txt, b_txt] ∧
      List.Forall₂ (Readable empty_file_env) [a_txt, b_txt] ([] ++ [] :: [[66]]) ∧
      LaterStagesOk empty_file_env (interleave ([] ++ [] :: [[66]])) ∧
      main Platform.posix empty_file_env =
        ⟨0, [Event.read_file (102 :: 47 :: a_txt), Event.read_file (102 :: 47 :: b_txt),
            Event.fopen_wb, Event.fwrite [1, 66]], some [1, 66]⟩ :=
  ⟨rfl, fun _ => rfl, by decide,
    List.Forall₂.cons ⟨by decide, rfl⟩
      (List.Forall₂.cons ⟨by decide, rfl⟩ List.Forall₂.nil),
    ⟨rfl, rfl, rfl, rfl⟩,
    (empty_frame_tolerated Platform.posix empty_file_env [a_txt, b_txt] [] [[66]] rfl
      (fun _ => rfl) (by decide)
      (List.Forall₂.cons ⟨by decide, rfl⟩
        (List.Forall₂.cons ⟨by decide, rfl⟩ List.Forall₂.nil))
      ⟨rfl, rfl, rfl, rfl⟩).2.2.2⟩

end Framegen
